import Mathlib

/-!
Shallow embedding of sparkmon (src/sparkmon.go), a terminal dashboard that
aggregates Spark application/job/stage data and renders it with termui.

Modelling conventions:
* Go strings are byte sequences; they are embedded as `List UInt8`
  (`GoString`).  `len`, slicing and prefix tests in the source are all
  byte-based, and the embedding follows that.
* Go `int` arithmetic: the values flowing through the program (terminal
  sizes, task counts, JSON integers) are far from the 64-bit boundary, so
  machine integers are embedded as `Int`; the one place where an
  implementation-defined conversion can occur (float-to-int with an
  out-of-range or NaN value, sparkmon.go line 115) is modelled explicitly
  with `Option`.
* Go integer division truncates toward zero: `Int.tdiv`.
* The `float64` arithmetic of line 115 is embedded exactly: `flp` rounds a
  positive rational (as a numerator/denominator pair) to the nearest
  IEEE-754 binary64 value (round half to even).  All rationals reached by
  the gauge computation lie in the normal range, so neither subnormals nor
  overflow need a special case; NaN/infinity arise only for `tasks == 0`
  and are modelled by `Option.none`.
* Panics (out-of-range slice bounds, sparkmon.go line 102) are modelled by
  `Option.none`; `log.Fatalf` in the fetch layer (which aborts the whole
  aggregation) is modelled by `Except.error`.
-/

/-! ## Go strings as byte sequences -/

/-- A Go string: a sequence of bytes (usually UTF-8, but not necessarily). -/
abbrev GoString := List UInt8

/-- The bytes of an ASCII literal.  Only used for literals appearing in the
source, which are all ASCII, where bytes and characters coincide. -/
def ascii (s : String) : GoString := s.data.map (fun c => UInt8.ofNat c.toNat)

/-- The bytes produced by Go `fmt.Sprintf("%v", n)` for an `int`: the
decimal representation, with a leading minus sign when negative.  This
agrees with Lean's `toString` on `Int`. -/
def goIntStr (n : Int) : GoString := ascii (toString n)

/-! ## Data model (sparkmon.go lines 230-267) -/

/-- `ApplicationIdAndName` (sparkmon.go line 230). -/
structure ApplicationIdAndName where
  Id : GoString
  Name : GoString
deriving DecidableEq

/-- `Job` (sparkmon.go line 235).  `Stages` holds the `stageIds` references. -/
structure Job where
  Index : Int
  Name : GoString
  Stages : List Int
  Status : GoString
deriving DecidableEq

/-- `Stage` (sparkmon.go line 242). -/
structure Stage where
  Index : Int
  Name : GoString
  Details : GoString
  Status : GoString
  Tasks : Int
  ActiveTasks : Int
  CompletedTasks : Int
  FailedTasks : Int
  KilledTasks : Int
deriving DecidableEq

/-- `EnrichedJob` (sparkmon.go line 264): a job with its stage references
resolved to concrete stages, in `stageRefs` order. -/
structure EnrichedJob where
  Job : Job
  Stages : List Stage
deriving DecidableEq

/-- `EnrichedApplication` (sparkmon.go line 259). -/
structure EnrichedApplication where
  App : ApplicationIdAndName
  Jobs : List EnrichedJob
deriving DecidableEq

/-- `State` (sparkmon.go line 254): the snapshot held by the event loop. -/
structure State where
  Apps : List EnrichedApplication
  Host : GoString
deriving DecidableEq

/-! ## IEEE-754 binary64 rounding on positive rationals

`flp a b` is the binary64 value nearest to `a / b` (ties to even),
returned as a numerator/denominator pair.  Valid whenever `a / b` is in
the normal, non-overflowing range, which covers every value reached by
the gauge computation. -/

/-- Structural floor-log2 (the fuel argument makes it kernel-reducible;
`ilog2` below supplies sufficient fuel). -/
def lg2 : Nat → Nat → Nat
  | 0, _ => 0
  | fuel+1, n => if n ≤ 1 then 0 else lg2 fuel (n / 2) + 1

/-- Floor of log2 for positive naturals (0 for 0). -/
def ilog2 (n : Nat) : Nat := lg2 n n

/-- Round `a / b` (with `b ≠ 0`) half to even to an integer. -/
def rhe (a b : Nat) : Nat :=
  let n := a / b
  let r := a % b
  if 2*r < b then n else if b < 2*r then n+1 else if n % 2 = 0 then n else n+1

/-- Decide `2 ^ k ≤ a / b` without rational arithmetic. -/
def pow2le (a b : Nat) (k : Int) : Bool :=
  if 0 ≤ k then b * 2^(k.toNat) ≤ a else b ≤ a * 2^((-k).toNat)

/-- Floor of log2 of the positive rational `a / b` (binade search around the
integer-log guess). -/
def qexpP (a b : Nat) : Int :=
  let g : Int := (ilog2 a : Int) - (ilog2 b : Int)
  if pow2le a b (g+1) then g+1
  else if pow2le a b g then g
  else g-1

/-- The pair representing `(a / b) * 2 ^ (52 - e)`. -/
def scale52 (a b : Nat) (e : Int) : Nat × Nat :=
  if e ≤ 52 then (a * 2^((52-e).toNat), b) else (a, b * 2^((e-52).toNat))

/-- The pair representing `m * 2 ^ (e - 52)`. -/
def pow2frac (m : Nat) (e : Int) : Nat × Nat :=
  if e ≤ 52 then (m, 2^((52-e).toNat)) else (m * 2^((e-52).toNat), 1)

/-- Round the positive rational `a / b` to the nearest binary64 value
(round half to even), as a pair.  Exact for zero. -/
def flp (a b : Nat) : Nat × Nat :=
  if a = 0 then (0, 1) else
  let e := qexpP a b
  let xy := scale52 a b e
  pow2frac (rhe xy.1 xy.2) e

/-- sparkmon.go line 115:
`bar.Percent = int(math.Ceil((float64(stage.CompletedTasks) / float64(stage.Tasks)) * 100))`.
The two int-to-float conversions, the division and the multiplication each
round to nearest binary64; `math.Ceil` is exact.  When `tasks = 0` the
division yields NaN or an infinity and the final conversion to `int` is
implementation-defined (Go spec), modelled as `none`; likewise when the
mathematically produced integer does not fit in `int64`. -/
def gaugePercent (completed tasks : Int) : Option Int :=
  if tasks = 0 then none else
  let fc := flp completed.natAbs 1
  let ft := flp tasks.natAbs 1
  let q0 := flp (fc.1 * ft.2) (fc.2 * ft.1)
  let q1 := flp (q0.1 * 100) q0.2
  let r : Int := if 0 ≤ completed * tasks
    then ((q1.1 + q1.2 - 1) / q1.2 : Nat)
    else -((q1.1 / q1.2 : Nat) : Int)
  if -(2^63) ≤ r ∧ r < 2^63 then some r else none

/-! ## Layout model (render, sparkmon.go lines 58-152)

`render` is embedded without the drawing side effects (`ui.Clear`,
`ui.Render`): it produces the list of drawables in the order they are
appended, each with the rectangle that `SetRect` finally gives it and the
text content assigned to it.  The styling calls (colors, modifiers,
border flags) carry no layout information and are not modelled.  The one
failure point of the pass - the slice `labelText[:labelWidth-3]` at line
102, which panics when `labelWidth - 3` is negative - is modelled by
`Option.none`. -/

/-- A screen rectangle as produced by termui `SetRect`, which canonicalises
via `image.Rect`: coordinates are swapped per axis so that `x0 ≤ x1` and
`y0 ≤ y1`; the covered cells are the half-open box `[x0,x1) × [y0,y1)`. -/
structure Rect where
  x0 : Int
  y0 : Int
  x1 : Int
  y1 : Int
deriving DecidableEq

/-- `image.Rect` canonicalisation used by `SetRect`. -/
def mkRect (x0 y0 x1 y1 : Int) : Rect :=
  ⟨min x0 x1, min y0 y1, max x0 x1, max y0 y1⟩

/-- Height of a rectangle. -/
def Rect.heightOf (r : Rect) : Int := r.y1 - r.y0

/-- Two rectangles are disjoint when their half-open boxes do not intersect. -/
def Rect.DisjointWith (r s : Rect) : Prop :=
  r.x1 ≤ s.x0 ∨ s.x1 ≤ r.x0 ∨ r.y1 ≤ s.y0 ∨ s.y1 ≤ r.y0 ∨
  r.x1 ≤ r.x0 ∨ r.y1 ≤ r.y0 ∨ s.x1 ≤ s.x0 ∨ s.y1 ≤ s.y0

instance (r s : Rect) : Decidable (r.DisjointWith s) := by
  unfold Rect.DisjointWith; infer_instance

/-- The kinds of drawables render creates, with the text they carry. -/
inductive Content where
  | headerText (text : GoString)
  | blockFrame (title : GoString)
  | label (text : GoString)
  | gauge (caption : GoString) (percent : Option Int)
  | detailLine (text : GoString)
deriving DecidableEq

/-- One positioned drawable. -/
structure Region where
  rect : Rect
  content : Content
deriving DecidableEq

/-- Whether a region is a bordered block frame (root or job block). -/
def Region.isFrame : Region → Prop
  | ⟨_, Content.blockFrame _⟩ => True
  | _ => False

instance (r : Region) : Decidable r.isFrame := by
  unfold Region.isFrame; cases r with
  | mk rect content => cases content <;> infer_instance

/-- sparkmon.go lines 101-103: truncate the label text when its byte length
exceeds `labelWidth`.  The slice `labelText[:labelWidth-3]` panics when
`labelWidth - 3 < 0` (modelled `none`). -/
def truncateLabel (text : GoString) (labelWidth : Int) : Option GoString :=
  if (text.length : Int) > labelWidth then
    if 0 ≤ labelWidth - 3 then some (text.take (labelWidth - 3).toNat ++ ascii "...")
    else none
  else some text

/-- Go `strings.Split(s, "\n")` on bytes: splitting the empty string gives
one empty field. -/
def splitNL : GoString → List GoString
  | [] => [[]]
  | b :: rest =>
    let r := splitNL rest
    if b = 10 then [] :: r
    else
      match r with
      | h :: t => (b :: h) :: t
      | [] => [[b]]

/-- sparkmon.go lines 121-127: the first line of `details` that does not
start with "org.apache"; if every line does, the initial placeholder
survives. -/
def firstNonApache : List GoString → GoString
  | [] => ascii "<spark internal>"
  | l :: rest => if (ascii "org.apache").isPrefixOf l then firstNonApache rest else l

/-- The detail text rendered for a stage. -/
def detailsTextOf (details : GoString) : GoString :=
  firstNonApache (splitNL details)

/-- sparkmon.go lines 97-137: the three drawables of one stage.  `y` is
`currentHeight + currentInternalHeight` on entry; the label and the gauge
share row `y`, the detail line sits on row `y + 1`. -/
def stageRegions (width labelWidth y : Int) (stage : Stage) : Option (List Region) := do
  let labelText ← truncateLabel
    (goIntStr stage.Index ++ ascii " " ++ stage.Status ++ ascii ": " ++ stage.Name)
    labelWidth
  let caption :=
    if stage.ActiveTasks = 0 then
      goIntStr stage.CompletedTasks ++ ascii "/" ++ goIntStr stage.Tasks
    else
      goIntStr stage.CompletedTasks ++ ascii "/" ++ goIntStr stage.Tasks ++
        ascii " (" ++ goIntStr stage.ActiveTasks ++ ascii " active)"
  pure [⟨mkRect 2 y labelWidth (y+1), Content.label labelText⟩,
        ⟨mkRect labelWidth y (width-2) (y+1),
          Content.gauge caption (gaugePercent stage.CompletedTasks stage.Tasks)⟩,
        ⟨mkRect 2 (y+1) (width-2) (y+2), Content.detailLine (detailsTextOf stage.Details)⟩]

/-- The stage loop of one job: regions plus the updated
`currentInternalHeight` (each stage advances it by 2). -/
def stagesFold (width labelWidth currentHeight : Int) :
    Int → List Stage → Option (List Region × Int)
  | cih, [] => pure ([], cih)
  | cih, stage :: rest => do
    let rs ← stageRegions width labelWidth (currentHeight + cih) stage
    let (rest', cih') ← stagesFold width labelWidth currentHeight (cih + 2) rest
    pure (rs ++ rest', cih')

/-- sparkmon.go lines 86-143: one job block.  Takes and returns
`currentInternalHeight`; the job frame is appended before its stages and
its rectangle is set after them. -/
def jobRegions (width labelWidth currentHeight cih : Int) (job : EnrichedJob) :
    Option (List Region × Int) := do
  let initialHeight := cih
  let (stageRs, cih1) ← stagesFold width labelWidth currentHeight (cih + 1) job.Stages
  let cih2 := cih1 + 1
  let frame : Region :=
    ⟨mkRect 1 (currentHeight + initialHeight) (width - 1) (currentHeight + cih2),
      Content.blockFrame (job.Job.Name ++ ascii " (Stage " ++ goIntStr job.Job.Index ++ ascii ")")⟩
  pure (frame :: stageRs, cih2)

/-- The job loop of one application block. -/
def jobsFold (width labelWidth currentHeight : Int) :
    Int → List EnrichedJob → Option (List Region × Int)
  | cih, [] => pure ([], cih)
  | cih, job :: rest => do
    let (rs, cih1) ← jobRegions width labelWidth currentHeight cih job
    let (rest', cih2) ← jobsFold width labelWidth currentHeight cih1 rest
    pure (rs ++ rest', cih2)

/-- sparkmon.go lines 72-148: one application block.  Returns its regions
(root frame first, then the job regions in order) and the number of rows
consumed (`currentInternalHeight + 1`). -/
def appRegions (width currentHeight : Int) (app : EnrichedApplication) :
    Option (List Region × Int) := do
  let labelWidth := Int.tdiv width 2
  let (jobRs, cih) ← jobsFold width labelWidth currentHeight 1 app.Jobs
  let root : Region :=
    ⟨mkRect 0 currentHeight width (currentHeight + cih + 1),
      Content.blockFrame (app.App.Name ++ ascii " (" ++ app.App.Id ++ ascii ")")⟩
  pure (root :: jobRs, cih + 1)

/-- The application loop: threads `currentHeight` through the blocks. -/
def appsFold (width : Int) : Int → List EnrichedApplication → Option (List Region × Int)
  | currentHeight, [] => pure ([], currentHeight)
  | currentHeight, app :: rest => do
    let (rs, consumed) ← appRegions width currentHeight app
    let (rest', ch') ← appsFold width (currentHeight + consumed) rest
    pure (rs ++ rest', ch')

/-- sparkmon.go lines 58-152: the full layout pass.  The `height` argument
is accepted (as in the source) but never used by the layout.  Returns the
drawables in append order, or `none` when the pass panics. -/
def render (width height : Int) (state : State) : Option (List Region) := do
  let header : Region :=
    ⟨mkRect 0 0 width 1, Content.headerText (ascii "Running against Spark on " ++ state.Host)⟩
  let (appRs, _) ← appsFold width 2 state.Apps
  pure (header :: appRs)

/-! ## State aggregation model (computeState, sparkmon.go lines 154-228)

The HTTP/JSON transport is an external collaborator: it is modelled as an
oracle (`Api`) giving, for each endpoint, either the decoded records or a
failure.  `readApiEndpoint` calls `log.Fatalf` on any network or decode
failure, which aborts the whole aggregation before a snapshot exists;
this abort is modelled as `Except.error`.

`getJobs` and `getStages` sort with Go `sort.Slice`, whose documented
contract guarantees a permutation ordered by the supplied `less` but is
explicitly *not* guaranteed to be stable.  The sort is therefore a
parameter, constrained only by that contract (`SortsByIndex`). -/

/-- The failure carried by a failed fetch or decode (the message that
`log.Fatalf` would print). -/
structure FetchError where
  msg : GoString
deriving DecidableEq

/-- The fetch oracle for one host: the three REST endpoints, the job and
stage lists keyed by application id. -/
structure Api where
  applications : Except FetchError (List ApplicationIdAndName)
  jobs : GoString → Except FetchError (List Job)
  stages : GoString → Except FetchError (List Stage)

/-- The contract of Go `sort.Slice` with `less i j := key(l[i]) < key(l[j])`:
the result is a permutation of the input, ordered (non-strictly) by the key.
Stability is deliberately absent - `sort.Slice` does not guarantee it. -/
def SortsByIndex {α : Type} (key : α → Int) (f : List α → List α) : Prop :=
  ∀ l : List α, (f l).Perm l ∧ (f l).Pairwise (fun a b => key a ≤ key b)

/-- sparkmon.go lines 160-163: build the `map[int]Stage`; later entries
overwrite earlier ones.  Lookup of an absent key returns the zero value. -/
def stagesMapOf (stages : List Stage) : Int → Stage :=
  stages.foldl (fun m s => fun i => if i = s.Index then s else m i)
    (fun _ => ⟨0, [], [], [], 0, 0, 0, 0, 0⟩)

/-- The zero value of `Stage`, produced by a lookup of an absent key. -/
def zeroStage : Stage := ⟨0, [], [], [], 0, 0, 0, 0, 0⟩

/-- sparkmon.go lines 196-202 (`getJobs`): fetch and sort the job list. -/
def getJobs (sortJobs : List Job → List Job) (api : Api)
    (app : ApplicationIdAndName) : Except FetchError (List Job) := do
  pure (sortJobs (← api.jobs app.Id))

/-- sparkmon.go lines 204-210 (`getStages`): fetch and sort the stage list. -/
def getStages (sortStages : List Stage → List Stage) (api : Api)
    (app : ApplicationIdAndName) : Except FetchError (List Stage) := do
  pure (sortStages (← api.stages app.Id))

/-- sparkmon.go lines 157-182: the per-application loop of `computeState`.
For each application, in fetch order: fetch jobs, fetch stages, build the
stage map, resolve every job's stage references through it. -/
def enrichApps (sortJobs : List Job → List Job) (sortStages : List Stage → List Stage)
    (api : Api) : List ApplicationIdAndName → Except FetchError (List EnrichedApplication)
  | [] => pure []
  | app :: rest => do
    let jobs ← getJobs sortJobs api app
    let stages ← getStages sortStages api app
    let lookup := stagesMapOf stages
    let jobsEnriched := jobs.map (fun job => EnrichedJob.mk job (job.Stages.map lookup))
    let tail ← enrichApps sortJobs sortStages api rest
    pure (EnrichedApplication.mk app jobsEnriched :: tail)

/-- sparkmon.go lines 154-188 (`computeState`): fetch the application list
and enrich each application; any underlying failure aborts the whole
aggregation. -/
def computeState (sortJobs : List Job → List Job) (sortStages : List Stage → List Stage)
    (api : Api) (host : GoString) : Except FetchError State := do
  let apps ← api.applications
  let appsEnriched ← enrichApps sortJobs sortStages api apps
  pure (State.mk appsEnriched host)

/-- A concrete sort satisfying the `sort.Slice` contract for jobs
(Mathlib's insertion sort). -/
def insSortJobs (l : List Job) : List Job :=
  List.insertionSort (fun a b => a.Index ≤ b.Index) l

/-- A concrete sort satisfying the `sort.Slice` contract for stages. -/
def insSortStages (l : List Stage) : List Stage :=
  List.insertionSort (fun a b => a.Index ≤ b.Index) l

/-- Another sort satisfying the `sort.Slice` contract for jobs: it sorts
the reversed list, so elements with equal indices come out in reversed
fetch order.  `sort.Slice` being unstable, nothing rules this behaviour
out. -/
def revSortJobs (l : List Job) : List Job := insSortJobs l.reverse

/-! ## Event loop model (main, sparkmon.go lines 18-56) -/

/-- The events the loop reacts to: a termui keyboard/mouse event carrying
an ID string, a terminal resize (ID `<Resize>`, which in termui always
carries a `ui.Resize` payload with the new dimensions), or a tick of the
5-second ticker.  A keyboard event never has the ID `<Resize>`, so the
two UI cases are disjoint constructors. -/
inductive Event where
  | key (id : GoString)
  | resize (w h : Int)
  | tick
deriving DecidableEq

/-- The state held across loop iterations: the host (fixed at startup),
the current snapshot, and the terminal dimensions. -/
structure LoopState where
  host : GoString
  state : State
  termWidth : Int
  termHeight : Int
deriving DecidableEq

/-- The outcome of servicing one event: quit, or keep looping with the
updated held state, recording the arguments of the `render` call made (if
any) and whether `computeState` was re-run. -/
inductive StepOutcome where
  | quit
  | continue_ (ls : LoopState) (renderCall : Option (Int × Int × State)) (refetched : Bool)
deriving DecidableEq

/-- sparkmon.go lines 36-55: the body of the select loop.  `fetch` stands
for `computeState` applied to the host (the network is outside the loop
model).  Unrecognised UI events fall through the switch and do nothing. -/
def loopStep (fetch : GoString → State) (ls : LoopState) : Event → StepOutcome
  | Event.key id =>
    if id = ascii "r" then
      let st := fetch ls.host
      StepOutcome.continue_ { ls with state := st }
        (some (ls.termWidth, ls.termHeight, st)) true
    else if id = ascii "q" ∨ id = ascii "<C-c>" then
      StepOutcome.quit
    else
      StepOutcome.continue_ ls none false
  | Event.resize w h =>
    StepOutcome.continue_ { ls with termWidth := w, termHeight := h }
      (some (w, h, ls.state)) false
  | Event.tick =>
    let st := fetch ls.host
    StepOutcome.continue_ { ls with state := st }
      (some (ls.termWidth, ls.termHeight, st)) true

/-! ## Derived observations and concrete inputs used by the theorems -/

/-- Whether a region is not a block frame (labels, gauges, detail lines
and the header are content; the bordered frames are not). -/
def isContentB (r : Region) : Bool :=
  match r.content with
  | Content.blockFrame _ => false
  | _ => true

/-- The regions of a layout that are not block frames. -/
def contentRegions (rs : List Region) : List Region :=
  rs.filter isContentB

/-- The percent values of the gauge regions of a layout, in order. -/
def gaugePercents (rs : List Region) : List (Option Int) :=
  rs.filterMap (fun r =>
    match r.content with
    | Content.gauge _ p => some p
    | _ => none)

/-- A stage with 7 of 25 tasks complete. -/
def stage725 : Stage := ⟨3, ascii "nm", ascii "", ascii "ACTIVE", 25, 0, 7, 0, 0⟩

/-- A state whose single stage has 7 of 25 tasks complete. -/
def state725 : State :=
  ⟨[⟨⟨ascii "app-1", ascii "MyApp"⟩, [⟨⟨1, ascii "jobname", [3], ascii "RUNNING"⟩, [stage725]⟩]⟩],
    ascii "http://x"⟩

/-- A stage with 3 of 10 tasks complete and 2 active. -/
def stage310 : Stage := ⟨3, ascii "count at X.scala:1", ascii "", ascii "ACTIVE", 10, 2, 3, 0, 0⟩

/-- A one-application, one-job, one-stage state. -/
def state310 : State :=
  ⟨[⟨⟨ascii "app-1", ascii "MyApp"⟩, [⟨⟨1, ascii "jobname", [3], ascii "RUNNING"⟩, [stage310]⟩]⟩],
    ascii "http://x"⟩

/-- The job of `state310` enriched with its stage. -/
def ejob310 : EnrichedJob := ⟨⟨1, ascii "jobname", [3], ascii "RUNNING"⟩, [stage310]⟩

/-- An application with one job that has no stages. -/
def eappNoStages : EnrichedApplication :=
  ⟨⟨ascii "app-1", ascii "MyApp"⟩, [⟨⟨1, ascii "jobname", [], ascii "RUNNING"⟩, []⟩]⟩

/-- Two jobs with the same index, in fetch order "a" then "b"; job "a"
references stages 2 and 1 in that order. -/
def jobTieA : Job := ⟨5, ascii "a", [2, 1], ascii "RUNNING"⟩

/-- Second job of the equal-index pair. -/
def jobTieB : Job := ⟨5, ascii "b", [], ascii "RUNNING"⟩

/-- Stage 1 of the C4 scenario. -/
def stageIx1 : Stage := ⟨1, ascii "s1", ascii "", ascii "ACTIVE", 4, 0, 1, 0, 0⟩

/-- Stage 2 of the C4 scenario. -/
def stageIx2 : Stage := ⟨2, ascii "s2", ascii "", ascii "ACTIVE", 4, 0, 2, 0, 0⟩

/-- Oracle for the C4 scenario: one application, two equal-index jobs,
stages 1 and 2 both present. -/
def apiTie : Api :=
  ⟨Except.ok [⟨ascii "app-1", ascii "MyApp"⟩],
    fun _ => Except.ok [jobTieA, jobTieB],
    fun _ => Except.ok [stageIx1, stageIx2]⟩

/-- Oracle for the C6 scenario: the single job references stage 7, which is
absent from the stage set. -/
def apiGap : Api :=
  ⟨Except.ok [⟨ascii "app-1", ascii "MyApp"⟩],
    fun _ => Except.ok [⟨1, ascii "jobname", [7], ascii "RUNNING"⟩],
    fun _ => Except.ok [stageIx1]⟩

/-- Oracle whose application-list fetch fails. -/
def apiDown : Api :=
  ⟨Except.error ⟨ascii "connection refused"⟩,
    fun _ => Except.ok [],
    fun _ => Except.ok []⟩

/-- A job with no stages. -/
def ejNoStages : EnrichedJob := ⟨⟨1, ascii "jobname", [], ascii "RUNNING"⟩, []⟩

/-- The single enriched application computeState builds from `apiTie`
with the stable insertion sorts. -/
def eaTie : EnrichedApplication :=
  ⟨⟨ascii "app-1", ascii "MyApp"⟩, [⟨jobTieA, [stageIx2, stageIx1]⟩, ⟨jobTieB, []⟩]⟩

/-- The snapshot computeState builds from `apiTie` with the stable
insertion sorts. -/
def stateTie : State := ⟨[eaTie], ascii "h"⟩

/-- The application of `state310`. -/
def eapp310 : EnrichedApplication := ⟨⟨ascii "app-1", ascii "MyApp"⟩, [ejob310]⟩

/-! ## Theorems -/

/-- C9: on a resize event the loop keeps the held snapshot and host,
updates only the stored dimensions from the event payload, re-runs only
the layout and draw (`render` is called with the new dimensions and the
unchanged snapshot), and does not re-fetch: the outcome is independent of
the fetch function. -/
theorem c9_resize_updates_dimensions_only
    (fetch fetchAlt : GoString → State) (ls : LoopState) (w h : Int) :
    loopStep fetch ls (Event.resize w h) =
      StepOutcome.continue_ ⟨ls.host, ls.state, w, h⟩ (some (w, h, ls.state)) false ∧
    loopStep fetch ls (Event.resize w h) = loopStep fetchAlt ls (Event.resize w h) :=
  ⟨rfl, rfl⟩

/-- Helper: when every line carries the excluded prefix, the initial
placeholder survives the loop. -/
theorem firstNonApache_of_all (ls : List GoString)
    (h : ∀ l ∈ ls, (ascii "org.apache").isPrefixOf l = true) :
    firstNonApache ls = ascii "<spark internal>" := by
  induction ls with
  | nil => rfl
  | cons a rest ih =>
    have ha := h a (List.mem_cons_self a rest)
    simp only [firstNonApache, ha, if_true]
    exact ih (fun l hl => h l (List.mem_cons_of_mem a hl))

/-- Helper: the loop returns the first line without the excluded prefix
when one exists. -/
theorem firstNonApache_of_find (ls : List GoString) (l : GoString)
    (h : ls.find? (fun x => !(ascii "org.apache").isPrefixOf x) = some l) :
    firstNonApache ls = l := by
  induction ls with
  | nil => simp [List.find?] at h
  | cons a rest ih =>
    by_cases ha : (ascii "org.apache").isPrefixOf a = true
    · rw [List.find?_cons] at h
      simp only [ha, Bool.not_true] at h
      simp only [firstNonApache, ha, if_true]
      exact ih h
    · rw [List.find?_cons] at h
      simp only [Bool.not_eq_true] at ha
      simp only [ha, Bool.not_false] at h
      simp only [firstNonApache, ha, Bool.false_eq_true, if_false]
      exact Option.some_inj.mp h

/-- C10: splitting empty details gives a single empty line, which does not
start with "org.apache", so empty details render as the empty detail text;
the fixed placeholder is produced exactly by the fallback branch - when
every line starts with "org.apache" - which forces details to be
non-empty; otherwise the detail text is the first line without that
prefix. -/
theorem c10_details_text (d : GoString) :
    (d = [] → detailsTextOf d = []) ∧
    ((∀ l ∈ splitNL d, (ascii "org.apache").isPrefixOf l = true) →
      d ≠ [] ∧ detailsTextOf d = ascii "<spark internal>") ∧
    (∀ l, (splitNL d).find? (fun x => !(ascii "org.apache").isPrefixOf x) = some l →
      detailsTextOf d = l) := by
  refine ⟨?_, ?_, ?_⟩
  · rintro rfl
    decide
  · intro h
    constructor
    · rintro rfl
      exact absurd (h [] (by decide)) (by decide)
    · exact firstNonApache_of_all _ h
  · intro l hl
    exact firstNonApache_of_find _ _ hl

/-- Witness for C10 at the empty string. -/
theorem c10_details_text_witness : detailsTextOf [] = [] :=
  (c10_details_text []).1 rfl

/-- Helper: looking up a key absent from the list leaves the initial map
untouched. -/
theorem foldl_stageInsert_not_mem (stages : List Stage) (m : Int → Stage) (i : Int)
    (h : i ∉ stages.map Stage.Index) :
    (stages.foldl (fun m s => fun j => if j = s.Index then s else m j) m) i = m i := by
  induction stages generalizing m with
  | nil => rfl
  | cons s rest ih =>
    simp only [List.map_cons, List.mem_cons, not_or] at h
    rw [List.foldl_cons, ih _ h.2]
    simp [h.1]

/-- C6 (amended): resolving a stage reference never fails (the map lookup
is a total function); a reference absent from the application's stage set
resolves to the zero-valued `Stage`, and every unknown reference resolves
to that same placeholder. -/
theorem c6_unknown_stage_ref_placeholder (stages : List Stage) (i j : Int)
    (hi : i ∉ stages.map Stage.Index) (hj : j ∉ stages.map Stage.Index) :
    stagesMapOf stages i = zeroStage ∧ stagesMapOf stages j = stagesMapOf stages i := by
  have h1 : stagesMapOf stages i = zeroStage := foldl_stageInsert_not_mem stages _ i hi
  have h2 : stagesMapOf stages j = zeroStage := foldl_stageInsert_not_mem stages _ j hj
  exact ⟨h1, h2.trans h1.symm⟩

/-- Witness for C6: reference 7 against a stage set containing only index 1. -/
theorem c6_unknown_stage_ref_placeholder_witness :
    (7 : Int) ∉ [stageIx1].map Stage.Index ∧
    stagesMapOf [stageIx1] 7 = zeroStage ∧
    stagesMapOf [stageIx1] 9 = stagesMapOf [stageIx1] 7 :=
  ⟨by decide,
    (c6_unknown_stage_ref_placeholder [stageIx1] 7 9 (by decide) (by decide)).1,
    (c6_unknown_stage_ref_placeholder [stageIx1] 7 9 (by decide) (by decide)).2⟩

/-- C6 counterexample to the claim as stated: in the aggregated snapshot the
unresolved reference 7 yields the zero-valued stage, whose name and status
are empty strings - nothing in the placeholder is flagged as unresolved. -/
theorem c6_placeholder_not_flagged_cex :
    (computeState insSortJobs insSortStages apiGap (ascii "h")).toOption.map
        (fun s => s.Apps.map (fun ea => ea.Jobs.map (fun ej => ej.Stages)))
      = some [[[zeroStage]]] ∧
    zeroStage.Name = [] ∧ zeroStage.Status = [] := by
  refine ⟨by decide, rfl, rfl⟩

/-- C5 (amended): when `labelWidth ≥ 3`, truncation is total: text of at
most `labelWidth` bytes is left unchanged, and longer text is cut to
`labelWidth - 3` bytes plus a trailing "...", giving exactly `labelWidth`
bytes ending in "...".  (Go `len` and slicing count bytes; the claim read
over labelWidth < 3 fails, see the counterexample.) -/
theorem c5_truncate_wide (text : GoString) (labelWidth : Int) (h3 : 3 ≤ labelWidth) :
    ∃ res, truncateLabel text labelWidth = some res ∧
      ((text.length : Int) ≤ labelWidth → res = text) ∧
      (labelWidth < (text.length : Int) →
        res = text.take (labelWidth - 3).toNat ++ ascii "..." ∧
        (res.length : Int) = labelWidth ∧
        ∃ stem, res = stem ++ ascii "...") := by
  by_cases hlen : (text.length : Int) > labelWidth
  · refine ⟨text.take (labelWidth - 3).toNat ++ ascii "...", ?_, ?_, ?_⟩
    · simp only [truncateLabel, hlen, if_true]
      have : (0:Int) ≤ labelWidth - 3 := by omega
      simp [this]
    · intro hc; omega
    · intro _
      refine ⟨rfl, ?_, text.take (labelWidth - 3).toNat, rfl⟩
      have htake : (text.take (labelWidth - 3).toNat).length = (labelWidth - 3).toNat := by
        rw [List.length_take]
        have : (labelWidth - 3).toNat ≤ text.length := by omega
        omega
      have hascii : (ascii "...").length = 3 := by decide
      rw [List.length_append, htake, hascii]
      push_cast
      omega
  · refine ⟨text, ?_, fun _ => rfl, ?_⟩
    · simp only [truncateLabel, hlen, if_false]
    · intro hc; omega

/-- Witness for C5 at the spec scenario: a 50-byte label with
`labelWidth = 20` comes back as 17 bytes plus "...", 20 bytes total. -/
theorem c5_truncate_wide_witness :
    ∃ res, truncateLabel (List.replicate 50 97) 20 = some res ∧
      (((List.replicate 50 97 : GoString).length : Int) ≤ 20 → res = List.replicate 50 97) ∧
      ((20:Int) < ((List.replicate 50 97 : GoString).length : Int) →
        res = (List.replicate 50 97 : GoString).take ((20:Int) - 3).toNat ++ ascii "..." ∧
        (res.length : Int) = 20 ∧
        ∃ stem, res = stem ++ ascii "...") :=
  c5_truncate_wide (List.replicate 50 97) 20 (by norm_num)

/-- C5 counterexample to the claim as stated: with `labelWidth = 2`
(that is `floor(width / 2)` for a width-4 terminal) and the four-byte
minimal label text "0 : ", the slice bound `labelWidth - 3` is negative
and the truncation panics instead of producing a shortened label. -/
theorem c5_truncate_narrow_cex :
    truncateLabel (ascii "0 : ") 2 = none ∧ Int.tdiv 4 2 = 2 ∧
    (ascii "0 : ").length = 4 := by
  refine ⟨by decide, by decide, by decide⟩

/-- Helper: truncation is total whenever the slice bound is non-negative. -/
theorem truncateLabel_total (text : GoString) (lw : Int) (h : 3 ≤ lw) :
    ∃ res, truncateLabel text lw = some res := by
  unfold truncateLabel
  by_cases hlen : (text.length : Int) > lw
  · have h0 : (0:Int) ≤ lw - 3 := by omega
    refine ⟨text.take (lw - 3).toNat ++ ascii "...", ?_⟩
    simp [hlen, h0]
  · exact ⟨text, by simp [hlen]⟩

/-- Helper: one stage lays out whenever `labelWidth ≥ 3`. -/
theorem stageRegions_total (w lw y : Int) (s : Stage) (h : 3 ≤ lw) :
    ∃ rs, stageRegions w lw y s = some rs := by
  obtain ⟨res, hres⟩ := truncateLabel_total
    (goIntStr s.Index ++ ascii " " ++ s.Status ++ ascii ": " ++ s.Name) lw h
  refine ⟨[⟨mkRect 2 y lw (y+1), Content.label res⟩,
    ⟨mkRect lw y (w-2) (y+1),
      Content.gauge (if s.ActiveTasks = 0 then
          goIntStr s.CompletedTasks ++ ascii "/" ++ goIntStr s.Tasks
        else
          goIntStr s.CompletedTasks ++ ascii "/" ++ goIntStr s.Tasks ++
            ascii " (" ++ goIntStr s.ActiveTasks ++ ascii " active)")
        (gaugePercent s.CompletedTasks s.Tasks)⟩,
    ⟨mkRect 2 (y+1) (w-2) (y+2), Content.detailLine (detailsTextOf s.Details)⟩], ?_⟩
  simp only [stageRegions, Option.bind_eq_bind]
  rw [hres]
  rfl

/-- Helper: the stage loop is total whenever `labelWidth ≥ 3`. -/
theorem stagesFold_total (w lw ch : Int) (h : 3 ≤ lw) :
    ∀ (stages : List Stage) (cih : Int), ∃ out, stagesFold w lw ch cih stages = some out := by
  intro stages
  induction stages with
  | nil => exact fun cih => ⟨_, rfl⟩
  | cons s rest ih =>
    intro cih
    obtain ⟨rs, hrs⟩ := stageRegions_total w lw (ch + cih) s h
    obtain ⟨⟨outRs, outCih⟩, hout⟩ := ih (cih + 2)
    refine ⟨(rs ++ outRs, outCih), ?_⟩
    simp [stagesFold, hrs, hout]

/-- Helper: one job block lays out whenever `labelWidth ≥ 3`. -/
theorem jobRegions_total (w lw ch cih : Int) (job : EnrichedJob) (h : 3 ≤ lw) :
    ∃ out, jobRegions w lw ch cih job = some out := by
  obtain ⟨⟨outRs, outCih⟩, hout⟩ := stagesFold_total w lw ch h job.Stages (cih + 1)
  refine ⟨(⟨mkRect 1 (ch + cih) (w - 1) (ch + (outCih + 1)),
      Content.blockFrame (job.Job.Name ++ ascii " (Stage " ++ goIntStr job.Job.Index ++ ascii ")")⟩
      :: outRs, outCih + 1), ?_⟩
  simp [jobRegions, hout]

/-- Helper: the job loop is total whenever `labelWidth ≥ 3`. -/
theorem jobsFold_total (w lw ch : Int) (h : 3 ≤ lw) :
    ∀ (jobs : List EnrichedJob) (cih : Int), ∃ out, jobsFold w lw ch cih jobs = some out := by
  intro jobs
  induction jobs with
  | nil => exact fun cih => ⟨_, rfl⟩
  | cons job rest ih =>
    intro cih
    obtain ⟨⟨rs, cih1⟩, hj⟩ := jobRegions_total w lw ch cih job h
    obtain ⟨⟨outRs, outCih⟩, hout⟩ := ih cih1
    refine ⟨(rs ++ outRs, outCih), ?_⟩
    simp [jobsFold, hj, hout]

/-- Helper: one application block lays out whenever the terminal is at
least 6 columns wide. -/
theorem appRegions_total (w ch : Int) (app : EnrichedApplication) (h : 6 ≤ w) :
    ∃ out, appRegions w ch app = some out := by
  have hlw : 3 ≤ Int.tdiv w 2 := by
    rw [Int.tdiv_eq_ediv (by omega) (by omega)]; omega
  obtain ⟨⟨rs, cih⟩, hj⟩ := jobsFold_total w (Int.tdiv w 2) ch hlw app.Jobs 1
  refine ⟨(⟨mkRect 0 ch w (ch + cih + 1),
      Content.blockFrame (app.App.Name ++ ascii " (" ++ app.App.Id ++ ascii ")")⟩
      :: rs, cih + 1), ?_⟩
  simp [appRegions, hj]

/-- Helper: the application loop is total whenever the terminal is at
least 6 columns wide. -/
theorem appsFold_total (w : Int) (h : 6 ≤ w) :
    ∀ (apps : List EnrichedApplication) (ch : Int), ∃ out, appsFold w ch apps = some out := by
  intro apps
  induction apps with
  | nil => exact fun ch => ⟨_, rfl⟩
  | cons app rest ih =>
    intro ch
    obtain ⟨⟨rs, consumed⟩, ha⟩ := appRegions_total w ch app h
    obtain ⟨⟨outRs, outCh⟩, hout⟩ := ih (ch + consumed)
    refine ⟨(rs ++ outRs, outCh), ?_⟩
    simp [appsFold, ha, hout]

/-- C2 (amended): the layout pass is a pure function of its inputs - in
particular it never reads the `height` argument - and it is total for
every snapshot whenever the terminal is at least 6 columns wide.  (For
narrower terminals it can fail on the label slice, see the
counterexample.) -/
theorem c2_render_pure_total_wide (width height : Int) (st : State) (h : 6 ≤ width) :
    (∃ rs, render width height st = some rs) ∧
    (∀ heightAlt : Int, render width height st = render width heightAlt st) := by
  constructor
  · obtain ⟨⟨rs, ch⟩, ha⟩ := appsFold_total width h st.Apps 2
    exact ⟨_, by unfold render; rw [ha]; rfl⟩
  · intro heightAlt; rfl

/-- Witness for C2 at width 6 on the one-stage state. -/
theorem c2_render_pure_total_wide_witness :
    (∃ rs, render 6 10 state310 = some rs) ∧
    (∀ heightAlt : Int, render 6 10 state310 = render 6 heightAlt state310) :=
  c2_render_pure_total_wide 6 10 state310 (by norm_num)

/-- C2 counterexample to the claim as stated: at terminal width 4 (a
degenerate but possible size) the layout pass fails on the one-stage
state - `labelWidth` is 2 and the slice bound `labelWidth - 3` is
negative, a panic in the source - instead of producing a region list. -/
theorem c2_render_narrow_fails_cex : render 4 10 state310 = none := by
  set_option maxRecDepth 1000000 in decide

/-- Helper: the stage loop advances the internal cursor by exactly two
rows per stage. -/
theorem stagesFold_cursor (w lw ch : Int) :
    ∀ (stages : List Stage) (cih : Int) (out : List Region × Int),
      stagesFold w lw ch cih stages = some out → out.2 = cih + 2 * stages.length := by
  intro stages
  induction stages with
  | nil =>
    intro cih out h
    simp only [stagesFold] at h
    cases h
    simp
  | cons s rest ih =>
    intro cih out h
    simp only [stagesFold, Option.bind_eq_bind] at h
    cases hsr : stageRegions w lw (ch + cih) s with
    | none => rw [hsr] at h; simp at h
    | some rs =>
      rw [hsr] at h
      simp only [Option.some_bind] at h
      cases hsf : stagesFold w lw ch (cih + 2) rest with
      | none => rw [hsf] at h; simp at h
      | some out2 =>
        rw [hsf] at h
        simp only [Option.some_bind] at h
        have := ih (cih + 2) out2 hsf
        cases h
        simp only [List.length_cons]
        push_cast
        omega

/-- C3 (amended): each stage of a job contributes two stacked rows - the
label and the progress gauge side by side on the first, the detail line
on the second - so a job block consumes `1 (top border) + 2 × stage count
+ 1 (spacing)` rows: its frame rectangle has height `2 + 2 × stage count`
and the internal cursor advances by that amount. -/
theorem c3_job_block_height (width labelWidth currentHeight cih : Int)
    (job : EnrichedJob) (rs : List Region) (cihEnd : Int)
    (h : jobRegions width labelWidth currentHeight cih job = some (rs, cihEnd)) :
    cihEnd = cih + 2 + 2 * (job.Stages.length : Int) ∧
    ∃ title stageRs,
      rs = Region.mk (mkRect 1 (currentHeight + cih) (width - 1) (currentHeight + cihEnd))
        (Content.blockFrame title) :: stageRs ∧
      (mkRect 1 (currentHeight + cih) (width - 1) (currentHeight + cihEnd)).heightOf
        = 2 + 2 * (job.Stages.length : Int) := by
  simp only [jobRegions, Option.bind_eq_bind] at h
  cases hsf : stagesFold width labelWidth currentHeight (cih + 1) job.Stages with
  | none => rw [hsf] at h; simp at h
  | some out =>
    rw [hsf] at h
    simp only [Option.some_bind] at h
    obtain ⟨rs0, cih1⟩ := out
    have hcur := stagesFold_cursor width labelWidth currentHeight job.Stages (cih + 1) (rs0, cih1) hsf
    simp only at hcur
    cases h
    constructor
    · omega
    · refine ⟨_, rs0, rfl, ?_⟩
      simp only [mkRect, Rect.heightOf]
      have hle : currentHeight + cih ≤ currentHeight + (cih1 + 1) := by omega
      rw [max_eq_right hle, min_eq_left hle]
      omega

/-- Witness for C3 on a stage-less job at width 10. -/
theorem c3_job_block_height_witness :
    (3:Int) = 1 + 2 + 2 * (ejNoStages.Stages.length : Int) ∧
    ∃ title stageRs,
      [(⟨mkRect 1 1 9 3,
          Content.blockFrame (ascii "jobname" ++ ascii " (Stage " ++ goIntStr 1 ++ ascii ")")⟩ : Region)]
        = Region.mk (mkRect 1 ((0:Int) + 1) (10 - 1) ((0:Int) + 3)) (Content.blockFrame title) :: stageRs ∧
      (mkRect 1 ((0:Int) + 1) (10 - 1) ((0:Int) + 3)).heightOf = 2 + 2 * (ejNoStages.Stages.length : Int) := by
  have h := c3_job_block_height 10 5 0 1 ejNoStages
    [⟨mkRect 1 1 9 3, Content.blockFrame (ascii "jobname" ++ ascii " (Stage " ++ goIntStr 1 ++ ascii ")")⟩]
    3 (by decide)
  exact ⟨by exact_mod_cast h.1, h.2⟩

/-- C3 counterexample to the claim as stated: for the one-stage job the
block spans rows 3..7 (height 4, not `1 + 3×1 + 1 = 5`), and the label
and gauge rectangles sit on the same row 4 rather than stacking. -/
theorem c3_three_rows_cex :
    ((jobRegions 40 20 2 1 ejob310).map (fun out => (out.1.map Region.rect, out.2)))
      = some ([mkRect 1 3 39 7, mkRect 2 4 20 5, mkRect 20 4 38 5, mkRect 2 5 38 6], 5) ∧
    (mkRect 1 3 39 7).heightOf = 4 ∧ ((4:Int) ≠ 1 + 3 * 1 + 1) ∧
    (mkRect 2 4 20 5).y0 = (mkRect 20 4 38 5).y0 := by
  set_option maxRecDepth 1000000 in decide

/-- Helper: bind on a successful fetch continues with the value. -/
theorem except_ok_bind {ε α β : Type} (a : α) (f : α → Except ε β) :
    (Except.ok a >>= f) = f a := rfl

/-- Helper: a failing jobs or stages fetch for any application in the list
makes the enrichment loop fail (either that application is reached and its
fetch fails, or an earlier failure has already aborted the loop). -/
theorem enrichApps_error_of_mem (sj : List Job → List Job) (ss : List Stage → List Stage)
    (api : Api) :
    ∀ (apps : List ApplicationIdAndName) (app : ApplicationIdAndName), app ∈ apps →
      ((∃ e, api.jobs app.Id = Except.error e) ∨ (∃ e, api.stages app.Id = Except.error e)) →
      ∃ e2, enrichApps sj ss api apps = Except.error e2 := by
  intro apps
  induction apps with
  | nil => intro app h; exact absurd h (List.not_mem_nil app)
  | cons a rest ih =>
    intro app hmem hfail
    cases hj : api.jobs a.Id with
    | error e => exact ⟨e, by simp only [enrichApps, getJobs, getStages]; rw [hj]; rfl⟩
    | ok jobs =>
      cases hs : api.stages a.Id with
      | error e => exact ⟨e, by simp only [enrichApps, getJobs, getStages]; rw [hj, hs]; rfl⟩
      | ok stages =>
        rcases List.mem_cons.mp hmem with rfl | hrest
        · rcases hfail with ⟨e, he⟩ | ⟨e, he⟩
          · rw [hj] at he; exact absurd he (by simp)
          · rw [hs] at he; exact absurd he (by simp)
        · obtain ⟨e2, he2⟩ := ih app hrest hfail
          exact ⟨e2, by simp only [enrichApps, getJobs, getStages]; rw [hj, hs, he2]; rfl⟩

/-- Helper: a successful enrichment covers every fetched application, and
implies every per-application fetch succeeded. -/
theorem enrichApps_ok (sj : List Job → List Job) (ss : List Stage → List Stage)
    (api : Api) :
    ∀ (apps : List ApplicationIdAndName) (l : List EnrichedApplication),
      enrichApps sj ss api apps = Except.ok l →
      l.length = apps.length ∧
      ∀ app ∈ apps, ∃ jobs stages,
        api.jobs app.Id = Except.ok jobs ∧ api.stages app.Id = Except.ok stages := by
  intro apps
  induction apps with
  | nil =>
    intro l h
    simp only [enrichApps] at h
    cases h
    exact ⟨rfl, by simp⟩
  | cons a rest ih =>
    intro l h
    cases hj : api.jobs a.Id with
    | error e => rw [show enrichApps sj ss api (a :: rest) = Except.error e from by
        simp only [enrichApps, getJobs, getStages]; rw [hj]; rfl] at h; cases h
    | ok jobs =>
      cases hs : api.stages a.Id with
      | error e => rw [show enrichApps sj ss api (a :: rest) = Except.error e from by
          simp only [enrichApps, getJobs, getStages]; rw [hj, hs]; rfl] at h; cases h
      | ok stages =>
        cases ht : enrichApps sj ss api rest with
        | error e => rw [show enrichApps sj ss api (a :: rest) = Except.error e from by
            simp only [enrichApps, getJobs, getStages]; rw [hj, hs, ht]; rfl] at h; cases h
        | ok tail =>
          obtain ⟨hlen, hall⟩ := ih tail ht
          rw [show enrichApps sj ss api (a :: rest)
              = Except.ok (EnrichedApplication.mk a
                  ((sj jobs).map (fun job =>
                    EnrichedJob.mk job (job.Stages.map (stagesMapOf (ss stages))))) :: tail) from by
            simp only [enrichApps, getJobs, getStages]; rw [hj, hs, ht]; rfl] at h
          cases h
          refine ⟨by simp [hlen], ?_⟩
          intro app hmem
          rcases List.mem_cons.mp hmem with rfl | hrest
          · exact ⟨jobs, stages, hj, hs⟩
          · exact hall app hrest

/-- C8: `computeState` either returns a full snapshot or fails: any failing
network or decode call (`log.Fatalf` in `readApiEndpoint`) aborts the whole
aggregation with the failure, never a partial snapshot - a failed
application-list fetch propagates verbatim, a failing per-application
fetch aborts with some failure, and a returned snapshot carries the host
and one enriched entry per fetched application, with every underlying
call having succeeded. -/
theorem c8_fetch_failure_aborts (sj : List Job → List Job) (ss : List Stage → List Stage)
    (api : Api) (host : GoString) :
    ((∃ e, computeState sj ss api host = Except.error e) ∨
      (∃ s, computeState sj ss api host = Except.ok s)) ∧
    (∀ e, api.applications = Except.error e →
      computeState sj ss api host = Except.error e) ∧
    (∀ apps app, api.applications = Except.ok apps → app ∈ apps →
      ((∃ e, api.jobs app.Id = Except.error e) ∨ (∃ e, api.stages app.Id = Except.error e)) →
      ∃ e2, computeState sj ss api host = Except.error e2) ∧
    (∀ s, computeState sj ss api host = Except.ok s →
      s.Host = host ∧ ∃ apps, api.applications = Except.ok apps ∧
        s.Apps.length = apps.length ∧
        ∀ app ∈ apps, ∃ jobs stages,
          api.jobs app.Id = Except.ok jobs ∧ api.stages app.Id = Except.ok stages) := by
  refine ⟨?_, ?_, ?_, ?_⟩
  · cases h : computeState sj ss api host with
    | error e => exact Or.inl ⟨e, rfl⟩
    | ok s => exact Or.inr ⟨s, rfl⟩
  · intro e he
    simp only [computeState]; rw [he]; rfl
  · intro apps app happs hmem hfail
    obtain ⟨e2, he2⟩ := enrichApps_error_of_mem sj ss api apps app hmem hfail
    exact ⟨e2, by simp only [computeState]; rw [happs]; simp only [except_ok_bind]; rw [he2]; rfl⟩
  · intro s hs
    cases ha : api.applications with
    | error e => rw [show computeState sj ss api host = Except.error e from by
        simp only [computeState]; rw [ha]; rfl] at hs; cases hs
    | ok apps =>
      cases he : enrichApps sj ss api apps with
      | error e => rw [show computeState sj ss api host = Except.error e from by
          simp only [computeState]; rw [ha]; simp only [except_ok_bind]; rw [he]; rfl] at hs; cases hs
      | ok l =>
        rw [show computeState sj ss api host = Except.ok (State.mk l host) from by
          simp only [computeState]; rw [ha]; simp only [except_ok_bind]; rw [he]; rfl] at hs
        cases hs
        obtain ⟨hlen, hall⟩ := enrichApps_ok sj ss api apps l he
        exact ⟨rfl, apps, rfl, hlen, hall⟩

/-- Witness for C8: a down host propagates its fetch failure. -/
theorem c8_fetch_failure_aborts_witness :
    computeState insSortJobs insSortStages apiDown (ascii "h")
      = Except.error ⟨ascii "connection refused"⟩ :=
  (c8_fetch_failure_aborts insSortJobs insSortStages apiDown (ascii "h")).2.1
    ⟨ascii "connection refused"⟩ rfl

instance : IsTotal Job (fun a b => a.Index ≤ b.Index) :=
  ⟨fun a b => Int.le_total a.Index b.Index⟩

instance : IsTrans Job (fun a b => a.Index ≤ b.Index) :=
  ⟨fun _ _ _ hab hbc => le_trans hab hbc⟩

instance : IsTotal Stage (fun a b => a.Index ≤ b.Index) :=
  ⟨fun a b => Int.le_total a.Index b.Index⟩

instance : IsTrans Stage (fun a b => a.Index ≤ b.Index) :=
  ⟨fun _ _ _ hab hbc => le_trans hab hbc⟩

/-- The insertion sort on jobs satisfies the `sort.Slice` contract. -/
theorem insSortJobs_contract : SortsByIndex Job.Index insSortJobs := fun l =>
  ⟨List.perm_insertionSort _ l, List.sorted_insertionSort _ l⟩

/-- The insertion sort on stages satisfies the `sort.Slice` contract. -/
theorem insSortStages_contract : SortsByIndex Stage.Index insSortStages := fun l =>
  ⟨List.perm_insertionSort _ l, List.sorted_insertionSort _ l⟩

/-- The tie-reversing sort also satisfies the `sort.Slice` contract: it
returns a permutation ordered by index. -/
theorem revSortJobs_contract : SortsByIndex Job.Index revSortJobs := fun l =>
  ⟨(List.perm_insertionSort _ l.reverse).trans l.reverse_perm,
    List.sorted_insertionSort _ l.reverse⟩

/-- Helper: the shape of every enriched application of a successful
aggregation - its jobs are the sorted fetched jobs, each with its stage
references resolved through the stage map in `stageRefs` order. -/
theorem enrichApps_mem_structure (sj : List Job → List Job) (ss : List Stage → List Stage)
    (api : Api) :
    ∀ (apps : List ApplicationIdAndName) (l : List EnrichedApplication),
      enrichApps sj ss api apps = Except.ok l →
      ∀ ea ∈ l, ∃ app jobs stages,
        api.jobs app.Id = Except.ok jobs ∧ api.stages app.Id = Except.ok stages ∧
        ea = EnrichedApplication.mk app
          ((sj jobs).map (fun job =>
            EnrichedJob.mk job (job.Stages.map (stagesMapOf (ss stages))))) := by
  intro apps
  induction apps with
  | nil =>
    intro l h
    simp only [enrichApps] at h
    cases h
    simp
  | cons a rest ih =>
    intro l h
    cases hj : api.jobs a.Id with
    | error e => rw [show enrichApps sj ss api (a :: rest) = Except.error e from by
        simp only [enrichApps, getJobs, getStages]; rw [hj]; rfl] at h; cases h
    | ok jobs =>
      cases hs : api.stages a.Id with
      | error e => rw [show enrichApps sj ss api (a :: rest) = Except.error e from by
          simp only [enrichApps, getJobs, getStages]; rw [hj, hs]; rfl] at h; cases h
      | ok stages =>
        cases ht : enrichApps sj ss api rest with
        | error e => rw [show enrichApps sj ss api (a :: rest) = Except.error e from by
            simp only [enrichApps, getJobs, getStages]; rw [hj, hs, ht]; rfl] at h; cases h
        | ok tail =>
          rw [show enrichApps sj ss api (a :: rest)
              = Except.ok (EnrichedApplication.mk a
                  ((sj jobs).map (fun job =>
                    EnrichedJob.mk job (job.Stages.map (stagesMapOf (ss stages))))) :: tail) from by
            simp only [enrichApps, getJobs, getStages]; rw [hj, hs, ht]; rfl] at h
          cases h
          intro ea hmem
          rcases List.mem_cons.mp hmem with rfl | hrest
          · exact ⟨a, jobs, stages, hj, hs, rfl⟩
          · exact ih tail ht ea hrest

/-- Helper: unpacking a successful `computeState`. -/
theorem computeState_ok (sj : List Job → List Job) (ss : List Stage → List Stage)
    (api : Api) (host : GoString) (s : State)
    (h : computeState sj ss api host = Except.ok s) :
    ∃ apps, api.applications = Except.ok apps ∧
      enrichApps sj ss api apps = Except.ok s.Apps ∧ s.Host = host := by
  cases ha : api.applications with
  | error e => rw [show computeState sj ss api host = Except.error e from by
      simp only [computeState]; rw [ha]; rfl] at h; cases h
  | ok apps =>
    cases he : enrichApps sj ss api apps with
    | error e => rw [show computeState sj ss api host = Except.error e from by
        simp only [computeState]; rw [ha]; simp only [except_ok_bind]; rw [he]; rfl] at h; cases h
    | ok l =>
      rw [show computeState sj ss api host = Except.ok (State.mk l host) from by
        simp only [computeState]; rw [ha]; simp only [except_ok_bind]; rw [he]; rfl] at h
      cases h
      exact ⟨apps, rfl, he, rfl⟩

/-- C4 (amended): for every sort satisfying the `sort.Slice` contract
(permutation, ordered by index - Go's `sort.Slice` guarantees no more;
it is *not* stable), every snapshot application has its jobs ascending by
job index, and each job's resolved stages appear in `stageRefs` order -
the fetched stage list is sorted only to feed the stage map, so the
stages inside a snapshot are not sorted, and the relative order of
equal-index jobs is unspecified. -/
theorem c4_jobs_sorted_stages_in_ref_order
    (f : List Job → List Job) (g : List Stage → List Stage)
    (hf : SortsByIndex Job.Index f) (hg : SortsByIndex Stage.Index g)
    (api : Api) (host : GoString) (s : State)
    (h : computeState f g api host = Except.ok s) :
    ∀ ea ∈ s.Apps,
      ea.Jobs.Pairwise (fun a b => a.Job.Index ≤ b.Job.Index) ∧
      ∃ stages, api.stages ea.App.Id = Except.ok stages ∧
        ∀ ej ∈ ea.Jobs, ej.Stages = ej.Job.Stages.map (stagesMapOf (g stages)) := by
  obtain ⟨apps, happs, henr, hhost⟩ := computeState_ok f g api host s h
  intro ea hmem
  obtain ⟨app, jobs, stages, hj, hs, rfl⟩ :=
    enrichApps_mem_structure f g api apps s.Apps henr ea hmem
  constructor
  · exact List.Pairwise.map _ (fun a b hab => hab) (hf jobs).2
  · refine ⟨stages, hs, ?_⟩
    intro ej hej
    obtain ⟨job, _, rfl⟩ := List.mem_map.mp hej
    rfl

/-- Witness for C4 on the stable insertion sorts and the two-job oracle. -/
theorem c4_jobs_sorted_stages_in_ref_order_witness :
    eaTie.Jobs.Pairwise (fun a b => a.Job.Index ≤ b.Job.Index) ∧
    ∃ stages, apiTie.stages eaTie.App.Id = Except.ok stages ∧
      ∀ ej ∈ eaTie.Jobs, ej.Stages = ej.Job.Stages.map (stagesMapOf (insSortStages stages)) :=
  c4_jobs_sorted_stages_in_ref_order insSortJobs insSortStages
    insSortJobs_contract insSortStages_contract apiTie (ascii "h") stateTie (by rfl)
    eaTie (by decide)

/-- C4 counterexample to the claim as stated: the tie-reversing sort
satisfies everything `sort.Slice` promises, yet under it the two
equal-index jobs come out in reversed fetch order ("b" before "a"), and
job "a"'s resolved stages carry indices `[2, 1]` - not ascending, because
a job's stages follow its `stageRefs` order, not the sorted stage list. -/
theorem c4_stability_and_stage_order_cex :
    SortsByIndex Job.Index revSortJobs ∧ SortsByIndex Stage.Index insSortStages ∧
    (computeState revSortJobs insSortStages apiTie (ascii "h")).toOption.map
        (fun s => s.Apps.map (fun ea => ea.Jobs.map (fun ej => (ej.Job.Name, ej.Stages.map Stage.Index))))
      = some [[(ascii "b", []), (ascii "a", [2, 1])]] ∧
    ¬ ([2, 1] : List Int).Pairwise (fun a b => a ≤ b) := by
  exact ⟨revSortJobs_contract, insSortStages_contract, by decide, by decide⟩

/-- Helper: the digit loop never shrinks the accumulator. -/
theorem toDigitsCore_length_le (b : Nat) :
    ∀ (fuel n : Nat) (ds : List Char), ds.length ≤ (Nat.toDigitsCore b fuel n ds).length := by
  intro fuel
  induction fuel with
  | zero => intro n ds; simp [Nat.toDigitsCore]
  | succ fuel ih =>
    intro n ds
    unfold Nat.toDigitsCore
    dsimp only
    by_cases hn : n / b = 0
    · simp [hn]
    · simp only [hn, if_false]
      exact le_trans (by simp) (ih (n / b) _)

/-- Helper: with fuel, the digit loop emits at least one digit. -/
theorem toDigitsCore_length_pos (b : Nat) (fuel n : Nat) (ds : List Char) (h : 1 ≤ fuel) :
    ds.length + 1 ≤ (Nat.toDigitsCore b fuel n ds).length := by
  cases fuel with
  | zero => omega
  | succ fuel =>
    unfold Nat.toDigitsCore
    dsimp only
    by_cases hn : n / b = 0
    · simp [hn]
    · simp only [hn, if_false]
      exact le_trans (by simp) (toDigitsCore_length_le b fuel (n / b) _)

/-- Helper: the decimal form of an integer is never empty. -/
theorem goIntStr_length_pos (n : Int) : 1 ≤ (goIntStr n).length := by
  show 1 ≤ ((toString n).data.map _).length
  rw [List.length_map]
  cases n with
  | ofNat m =>
    show 1 ≤ (Nat.repr m).data.length
    show 1 ≤ (Nat.toDigits 10 m).length
    have := toDigitsCore_length_pos 10 (m+1) m [] (by omega)
    simpa [Nat.toDigits] using this
  | negSucc m =>
    show 1 ≤ ("-" ++ toString (m+1)).data.length
    rw [String.data_append]
    simp

/-- Helper: a stage label text is at least 4 bytes long. -/
theorem labelText_length (s : Stage) :
    4 ≤ (goIntStr s.Index ++ ascii " " ++ s.Status ++ ascii ": " ++ s.Name).length := by
  simp only [List.length_append]
  have h1 := goIntStr_length_pos s.Index
  have h2 : (ascii " ").length = 1 := by decide
  have h3 : (ascii ": ").length = 2 := by decide
  omega

/-- Helper: successful truncation of a text of at least 4 bytes needs
`labelWidth ≥ 3`. -/
theorem truncateLabel_labelWidth (text : GoString) (lw : Int) (res : GoString)
    (hlen : 4 ≤ text.length) (h : truncateLabel text lw = some res) : 3 ≤ lw := by
  unfold truncateLabel at h
  by_cases hc : (text.length : Int) > lw
  · rw [if_pos hc] at h
    by_cases h0 : (0:Int) ≤ lw - 3
    · omega
    · rw [if_neg h0] at h; cases h
  · omega

/-- Helper: a successfully laid-out stage needs `labelWidth ≥ 3`. -/
theorem stageRegions_labelWidth (w lw y : Int) (s : Stage) (rs : List Region)
    (h : stageRegions w lw y s = some rs) : 3 ≤ lw := by
  simp only [stageRegions, Option.bind_eq_bind] at h
  cases htr : truncateLabel
      (goIntStr s.Index ++ ascii " " ++ s.Status ++ ascii ": " ++ s.Name) lw with
  | none => rw [htr] at h; simp at h
  | some res => exact truncateLabel_labelWidth _ lw res (labelText_length s) htr

/-- Helper: the three regions of one stage are pairwise disjoint content
regions confined to the two rows starting at `y` (given a sane label
split, which any successful layout provides). -/
theorem stageRegions_content (w lw y : Int) (s : Stage) (rs : List Region)
    (h3 : 3 ≤ lw) (hw : lw ≤ w - 2) (h : stageRegions w lw y s = some rs) :
    (∀ r ∈ rs, isContentB r = true ∧ y ≤ r.rect.y0 ∧ r.rect.y1 ≤ y + 2) ∧
    rs.Pairwise (fun r t => r.rect.DisjointWith t.rect) := by
  simp only [stageRegions, Option.bind_eq_bind] at h
  cases htr : truncateLabel
      (goIntStr s.Index ++ ascii " " ++ s.Status ++ ascii ": " ++ s.Name) lw with
  | none => rw [htr] at h; simp at h
  | some res =>
    rw [htr] at h
    simp only [Option.some_bind] at h
    cases h
    constructor
    · intro r hr
      simp only [List.mem_cons, List.not_mem_nil, or_false] at hr
      rcases hr with rfl | rfl | rfl <;>
        refine ⟨rfl, ?_, ?_⟩ <;> simp only [mkRect] <;> omega
    · refine List.Pairwise.cons ?_ (List.Pairwise.cons ?_ (List.pairwise_singleton _ _))
      · intro t ht
        simp only [List.mem_cons, List.not_mem_nil, or_false] at ht
        rcases ht with rfl | rfl <;>
          simp only [Rect.DisjointWith, mkRect] <;> omega
      · intro t ht
        simp only [List.mem_cons, List.not_mem_nil, or_false] at ht
        rcases ht with rfl <;>
          simp only [Rect.DisjointWith, mkRect] <;> omega

/-- Helper: the stage loop produces pairwise-disjoint content regions
confined to the rows it consumes. -/
theorem stagesFold_content (w lw ch : Int) (h3 : 3 ≤ lw) (hw : lw ≤ w - 2) :
    ∀ (stages : List Stage) (cih : Int) (rs : List Region) (cihEnd : Int),
      stagesFold w lw ch cih stages = some (rs, cihEnd) →
      cih ≤ cihEnd ∧
      (∀ r ∈ rs, isContentB r = true ∧ ch + cih ≤ r.rect.y0 ∧ r.rect.y1 ≤ ch + cihEnd) ∧
      rs.Pairwise (fun r t => r.rect.DisjointWith t.rect) := by
  intro stages
  induction stages with
  | nil =>
    intro cih rs cihEnd h
    simp only [stagesFold] at h
    cases h
    exact ⟨le_refl _, by simp, List.Pairwise.nil⟩
  | cons s rest ih =>
    intro cih rs cihEnd h
    simp only [stagesFold, Option.bind_eq_bind] at h
    cases hsr : stageRegions w lw (ch + cih) s with
    | none => rw [hsr] at h; simp at h
    | some srs =>
      rw [hsr] at h
      simp only [Option.some_bind] at h
      cases hsf : stagesFold w lw ch (cih + 2) rest with
      | none => rw [hsf] at h; simp at h
      | some out2 =>
        rw [hsf] at h
        simp only [Option.some_bind] at h
        obtain ⟨rs2, cih2⟩ := out2
        cases h
        obtain ⟨hmono, hbounds2, hpair2⟩ := ih (cih + 2) rs2 cih2 hsf
        obtain ⟨hbounds1, hpair1⟩ := stageRegions_content w lw (ch + cih) s srs h3 hw hsr
        refine ⟨by omega, ?_, ?_⟩
        · intro r hr
          rcases List.mem_append.mp hr with h1 | h2
          · obtain ⟨hc, hy0, hy1⟩ := hbounds1 r h1
            exact ⟨hc, by omega, by omega⟩
          · obtain ⟨hc, hy0, hy1⟩ := hbounds2 r h2
            exact ⟨hc, by omega, hy1⟩
        · rw [List.pairwise_append]
          refine ⟨hpair1, hpair2, ?_⟩
          intro r hr t ht
          obtain ⟨_, _, hry1⟩ := hbounds1 r hr
          obtain ⟨_, hty0, _⟩ := hbounds2 t ht
          unfold Rect.DisjointWith
          omega

/-- Helper: the content regions of one job block are pairwise disjoint and
confined to the rows the block consumes. -/
theorem jobRegions_content (w lw ch cih : Int) (job : EnrichedJob)
    (rs : List Region) (cihEnd : Int) (h3 : 3 ≤ lw) (hw : lw ≤ w - 2)
    (h : jobRegions w lw ch cih job = some (rs, cihEnd)) :
    cih ≤ cihEnd ∧
    (∀ r ∈ contentRegions rs, ch + cih ≤ r.rect.y0 ∧ r.rect.y1 ≤ ch + cihEnd) ∧
    (contentRegions rs).Pairwise (fun r t => r.rect.DisjointWith t.rect) := by
  simp only [jobRegions, Option.bind_eq_bind] at h
  cases hsf : stagesFold w lw ch (cih + 1) job.Stages with
  | none => rw [hsf] at h; simp at h
  | some out =>
    rw [hsf] at h
    simp only [Option.some_bind] at h
    obtain ⟨srs, cih1⟩ := out
    cases h
    obtain ⟨hmono, hbounds, hpair⟩ := stagesFold_content w lw ch h3 hw job.Stages (cih + 1) srs cih1 hsf
    have hcr : contentRegions
        (Region.mk (mkRect 1 (ch + cih) (w - 1) (ch + (cih1 + 1)))
          (Content.blockFrame (job.Job.Name ++ ascii " (Stage " ++ goIntStr job.Job.Index ++ ascii ")"))
          :: srs) = srs := by
      show List.filter _ _ = _
      rw [List.filter_cons_of_neg (by simp [isContentB])]
      exact List.filter_eq_self.mpr (fun r hr => (hbounds r hr).1)
    rw [hcr]
    refine ⟨by omega, ?_, hpair⟩
    intro r hr
    obtain ⟨_, hy0, hy1⟩ := hbounds r hr
    exact ⟨by omega, by omega⟩

/-- Helper: the content regions of the whole job loop are pairwise
disjoint and confined to the rows consumed. -/
theorem jobsFold_content (w lw ch : Int) (h3 : 3 ≤ lw) (hw : lw ≤ w - 2) :
    ∀ (jobs : List EnrichedJob) (cih : Int) (rs : List Region) (cihEnd : Int),
      jobsFold w lw ch cih jobs = some (rs, cihEnd) →
      cih ≤ cihEnd ∧
      (∀ r ∈ contentRegions rs, ch + cih ≤ r.rect.y0 ∧ r.rect.y1 ≤ ch + cihEnd) ∧
      (contentRegions rs).Pairwise (fun r t => r.rect.DisjointWith t.rect) := by
  intro jobs
  induction jobs with
  | nil =>
    intro cih rs cihEnd h
    simp only [jobsFold] at h
    cases h
    exact ⟨le_refl _, by simp [contentRegions], List.Pairwise.nil⟩
  | cons job rest ih =>
    intro cih rs cihEnd h
    simp only [jobsFold, Option.bind_eq_bind] at h
    cases hjr : jobRegions w lw ch cih job with
    | none => rw [hjr] at h; simp at h
    | some out1 =>
      rw [hjr] at h
      simp only [Option.some_bind] at h
      obtain ⟨rs1, cih1⟩ := out1
      cases hjf : jobsFold w lw ch cih1 rest with
      | none => rw [hjf] at h; simp at h
      | some out2 =>
        rw [hjf] at h
        simp only [Option.some_bind] at h
        obtain ⟨rs2, cih2⟩ := out2
        cases h
        obtain ⟨hm1, hb1, hp1⟩ := jobRegions_content w lw ch cih job rs1 cih1 h3 hw hjr
        obtain ⟨hm2, hb2, hp2⟩ := ih cih1 rs2 cih2 hjf
        have happ : contentRegions (rs1 ++ rs2) = contentRegions rs1 ++ contentRegions rs2 := by
          unfold contentRegions
          exact List.filter_append rs1 rs2
        rw [happ]
        refine ⟨by omega, ?_, ?_⟩
        · intro r hr
          rcases List.mem_append.mp hr with h1 | h2
          · obtain ⟨hy0, hy1⟩ := hb1 r h1
            exact ⟨hy0, by omega⟩
          · obtain ⟨hy0, hy1⟩ := hb2 r h2
            exact ⟨by omega, hy1⟩
        · rw [List.pairwise_append]
          refine ⟨hp1, hp2, ?_⟩
          intro r hr t ht
          obtain ⟨_, hry1⟩ := hb1 r hr
          obtain ⟨hty0, _⟩ := hb2 t ht
          unfold Rect.DisjointWith
          omega

/-- Helper: every job of a successful job loop was laid out at some
cursor position. -/
theorem jobsFold_mem_jobRegions (w lw ch : Int) :
    ∀ (jobs : List EnrichedJob) (cih : Int) (out : List Region × Int),
      jobsFold w lw ch cih jobs = some out →
      ∀ j ∈ jobs, ∃ cihj outj, jobRegions w lw ch cihj j = some outj := by
  intro jobs
  induction jobs with
  | nil => intro cih out _ j hj; exact absurd hj (List.not_mem_nil j)
  | cons job rest ih =>
    intro cih out h j hj
    simp only [jobsFold, Option.bind_eq_bind] at h
    cases hjr : jobRegions w lw ch cih job with
    | none => rw [hjr] at h; simp at h
    | some out1 =>
      rw [hjr] at h
      simp only [Option.some_bind] at h
      obtain ⟨rs1, cih1⟩ := out1
      cases hjf : jobsFold w lw ch cih1 rest with
      | none => rw [hjf] at h; simp at h
      | some out2 =>
        rcases List.mem_cons.mp hj with rfl | hrest
        · exact ⟨cih, (rs1, cih1), hjr⟩
        · exact ih cih1 out2 hjf j hrest

/-- Helper: a successfully laid-out job with at least one stage needs
`labelWidth ≥ 3`. -/
theorem jobRegions_labelWidth (w lw ch cih : Int) (job : EnrichedJob)
    (out : List Region × Int) (h : jobRegions w lw ch cih job = some out)
    (hne : job.Stages ≠ []) : 3 ≤ lw := by
  simp only [jobRegions, Option.bind_eq_bind] at h
  cases hsf : stagesFold w lw ch (cih + 1) job.Stages with
  | none => rw [hsf] at h; simp at h
  | some out2 =>
    cases hstages : job.Stages with
    | nil => exact absurd hstages hne
    | cons s rest =>
      rw [hstages] at hsf
      simp only [stagesFold, Option.bind_eq_bind] at hsf
      cases hsr : stageRegions w lw (ch + (cih + 1)) s with
      | none => rw [hsr] at hsf; simp at hsf
      | some srs => exact stageRegions_labelWidth w lw (ch + (cih + 1)) s srs hsr

/-- Helper: when every job is stage-less, the job loop emits only frames. -/
theorem jobsFold_all_frames (w lw ch : Int) :
    ∀ (jobs : List EnrichedJob) (cih : Int) (rs : List Region) (cihEnd : Int),
      (∀ j ∈ jobs, j.Stages = ([] : List Stage)) →
      jobsFold w lw ch cih jobs = some (rs, cihEnd) → contentRegions rs = [] := by
  intro jobs
  induction jobs with
  | nil =>
    intro cih rs cihEnd _ h
    simp only [jobsFold] at h
    cases h
    rfl
  | cons job rest ih =>
    intro cih rs cihEnd hall h
    have hempty : job.Stages = [] := hall job (List.mem_cons_self job rest)
    simp only [jobsFold, Option.bind_eq_bind] at h
    have hjr : jobRegions w lw ch cih job =
        some ([Region.mk (mkRect 1 (ch + cih) (w - 1) (ch + (cih + 1 + 1)))
          (Content.blockFrame (job.Job.Name ++ ascii " (Stage " ++ goIntStr job.Job.Index ++ ascii ")"))],
          cih + 1 + 1) := by
      simp only [jobRegions, hempty, stagesFold, Option.bind_eq_bind, Option.some_bind]
      rfl
    rw [hjr] at h
    simp only [Option.some_bind] at h
    cases hjf : jobsFold w lw ch (cih + 1 + 1) rest with
    | none => rw [hjf] at h; simp at h
    | some out2 =>
      rw [hjf] at h
      simp only [Option.some_bind] at h
      obtain ⟨rs2, cih2⟩ := out2
      cases h
      have h2 : contentRegions rs2 = [] := ih (cih + 1 + 1) rs2 cih2
        (fun j hj => hall j (List.mem_cons_of_mem job hj)) hjf
      show List.filter _ _ = _
      simp only [List.singleton_append]
      rw [List.filter_cons_of_neg (by simp [isContentB])]
      exact h2

/-- Helper: a truncating label width is only reachable for terminals at
least 6 columns wide, where it stays clear of the gauge's right edge. -/
theorem tdiv_labelWidth_bound (w : Int) (h : 3 ≤ Int.tdiv w 2) : Int.tdiv w 2 ≤ w - 2 := by
  by_cases hw0 : 0 ≤ w
  · rw [Int.tdiv_eq_ediv hw0 (by omega)] at h ⊢
    omega
  · exfalso
    have hneg : Int.tdiv w 2 = -(Int.tdiv (-w) 2) := by
      rw [show w = -(-w) from by omega, Int.neg_tdiv]
      simp
    have hnn : 0 ≤ Int.tdiv (-w) 2 := Int.tdiv_nonneg (by omega) (by omega)
    omega

/-- C7 (amended): within one application block, the rectangles of the
non-frame regions (labels, gauges, detail lines) are pairwise disjoint -
in particular the label ends at column `labelWidth` where the gauge
starts on the same row.  The block frames themselves necessarily contain
their content (and each other), so the claim cannot hold for frames. -/
theorem c7_content_regions_disjoint (width currentHeight : Int) (app : EnrichedApplication)
    (rs : List Region) (consumed : Int)
    (h : appRegions width currentHeight app = some (rs, consumed)) :
    (contentRegions rs).Pairwise (fun r t => r.rect.DisjointWith t.rect) := by
  simp only [appRegions, Option.bind_eq_bind] at h
  cases hjf : jobsFold width (Int.tdiv width 2) currentHeight 1 app.Jobs with
  | none => rw [hjf] at h; simp at h
  | some out =>
    rw [hjf] at h
    simp only [Option.some_bind] at h
    obtain ⟨jrs, cih⟩ := out
    cases h
    have hroot : contentRegions
        (Region.mk (mkRect 0 currentHeight width (currentHeight + cih + 1))
          (Content.blockFrame (app.App.Name ++ ascii " (" ++ app.App.Id ++ ascii ")"))
          :: jrs) = contentRegions jrs := by
      show List.filter _ _ = _
      rw [List.filter_cons_of_neg (by simp [isContentB])]
      rfl
    rw [hroot]
    by_cases hst : ∃ j ∈ app.Jobs, j.Stages ≠ []
    · obtain ⟨j, hjmem, hne⟩ := hst
      obtain ⟨cihj, outj, hjr⟩ :=
        jobsFold_mem_jobRegions width (Int.tdiv width 2) currentHeight app.Jobs 1 (jrs, cih) hjf j hjmem
      have h3 : 3 ≤ Int.tdiv width 2 :=
        jobRegions_labelWidth width (Int.tdiv width 2) currentHeight cihj j outj hjr hne
      have hw : Int.tdiv width 2 ≤ width - 2 := tdiv_labelWidth_bound width h3
      exact (jobsFold_content width (Int.tdiv width 2) currentHeight h3 hw
        app.Jobs 1 jrs cih hjf).2.2
    · push_neg at hst
      rw [jobsFold_all_frames width (Int.tdiv width 2) currentHeight app.Jobs 1 jrs cih hst hjf]
      exact List.Pairwise.nil

/-- Witness for C7 on the one-stage application at width 40: the label,
gauge and detail rectangles are pairwise disjoint; the two frames are
filtered out. -/
theorem c7_content_regions_disjoint_witness :
    (contentRegions
      [⟨mkRect 0 2 40 8, Content.blockFrame (ascii "MyApp (app-1)")⟩,
        ⟨mkRect 1 3 39 7, Content.blockFrame (ascii "jobname (Stage 1)")⟩,
        ⟨mkRect 2 4 20 5, Content.label (ascii "3 ACTIVE: count a...")⟩,
        ⟨mkRect 20 4 38 5, Content.gauge (ascii "3/10 (2 active)") (some 30)⟩,
        ⟨mkRect 2 5 38 6, Content.detailLine (ascii "")⟩]).Pairwise
      (fun r t => r.rect.DisjointWith t.rect) :=
  c7_content_regions_disjoint 40 2 eapp310 _ 6
    (by set_option maxRecDepth 1000000 in decide)

/-- C7 counterexample to the claim as stated: for an application with one
stage-less job the layout pass returns exactly two regions - the root
frame and the job frame - and their rectangles overlap (the job frame is
nested inside the root frame of the same application block). -/
theorem c7_frames_overlap_cex :
    (appRegions 20 2 eappNoStages).map (fun out => (out.1.map Region.rect, out.2))
      = some ([mkRect 0 2 20 6, mkRect 1 3 19 5], 4) ∧
    ¬ (mkRect 0 2 20 6).DisjointWith (mkRect 1 3 19 5) := by
  exact ⟨by decide, by decide⟩

/-- Helper: round-half-even never exceeds an integer bound that dominates
its argument. -/
theorem rhe_le (a b M : Nat) (hb : b ≠ 0) (h : a ≤ b * M) : rhe a b ≤ M := by
  have hdm := Nat.div_add_mod a b
  have hdiv : a / b ≤ M := by
    have := Nat.div_le_div_right (c := b) h
    rwa [Nat.mul_div_cancel_left M (Nat.pos_of_ne_zero hb)] at this
  unfold rhe
  dsimp only
  by_cases h1 : 2 * (a % b) < b
  · rw [if_pos h1]; exact hdiv
  · rw [if_neg h1]
    have hrpos : 1 ≤ a % b := by omega
    have hlt : a / b < M := by
      rcases Nat.lt_or_ge (a / b) M with hlt | hge
    -- either already strict, or `a / b = M` forces a zero remainder
      · exact hlt
      · exfalso
        have hdivM : a / b = M := le_antisymm hdiv hge
        rw [hdivM] at hdm
        omega
    by_cases h2 : b < 2 * (a % b)
    · rw [if_pos h2]; omega
    · rw [if_neg h2]
      by_cases h3 : a / b % 2 = 0
      · rw [if_pos h3]; omega
      · rw [if_neg h3]; omega

/-- Helper: correctness of the fuelled floor-log2. -/
theorem lg2_correct : ∀ (fuel n : Nat), 1 ≤ n → n ≤ fuel →
    2 ^ (lg2 fuel n) ≤ n ∧ n < 2 ^ (lg2 fuel n + 1) := by
  intro fuel
  induction fuel with
  | zero => intro n h1 h2; omega
  | succ fuel ih =>
    intro n h1 h2
    by_cases hn : n ≤ 1
    · have : n = 1 := by omega
      subst this
      simp [lg2]
    · have hrec : lg2 (fuel + 1) n = lg2 fuel (n / 2) + 1 := by
        simp [lg2, hn]
      have hhalf1 : 1 ≤ n / 2 := by omega
      have hhalf2 : n / 2 ≤ fuel := by omega
      obtain ⟨hlo, hhi⟩ := ih (n / 2) hhalf1 hhalf2
      rw [hrec]
      constructor
      · rw [pow_succ]
        omega
      · rw [pow_succ, pow_succ] at *
        omega

/-- Helper: correctness of `ilog2` on positive naturals. -/
theorem ilog2_correct (n : Nat) (h : 1 ≤ n) :
    2 ^ (ilog2 n) ≤ n ∧ n < 2 ^ (ilog2 n + 1) :=
  lg2_correct n n h (le_refl n)

/-- Helper: the binade found by `qexpP` is a lower bound for `a / b`. -/
theorem qexpP_lower (a b : Nat) (ha : 1 ≤ a) (hb : 1 ≤ b) :
    pow2le a b (qexpP a b) = true := by
  unfold qexpP
  dsimp only
  by_cases hc1 : pow2le a b ((ilog2 a : Int) - (ilog2 b : Int) + 1) = true
  · rw [if_pos hc1]; exact hc1
  · rw [if_neg hc1]
    by_cases hc2 : pow2le a b ((ilog2 a : Int) - (ilog2 b : Int)) = true
    · rw [if_pos hc2]; exact hc2
    · rw [if_neg hc2]
      obtain ⟨ha1, _⟩ := ilog2_correct a ha
      obtain ⟨_, hb2⟩ := ilog2_correct b hb
      -- show 2 ^ (la - lb - 1) ≤ a / b from 2 ^ la ≤ a and b < 2 ^ (lb + 1)
      unfold pow2le
      by_cases hk : (0:Int) ≤ (ilog2 a : Int) - (ilog2 b : Int) - 1
      · rw [if_pos hk]
        have hla : ilog2 b + 1 ≤ ilog2 a := by omega
        have htn : ((ilog2 a : Int) - (ilog2 b : Int) - 1).toNat
            = ilog2 a - (ilog2 b + 1) := by omega
        rw [htn]
        simp only [decide_eq_true_eq]
        calc b * 2 ^ (ilog2 a - (ilog2 b + 1))
            ≤ (2 ^ (ilog2 b + 1) - 1) * 2 ^ (ilog2 a - (ilog2 b + 1)) := by
              apply Nat.mul_le_mul_right
              omega
          _ ≤ 2 ^ (ilog2 b + 1) * 2 ^ (ilog2 a - (ilog2 b + 1)) - 1 := by
              have hp1 : 1 ≤ 2 ^ (ilog2 a - (ilog2 b + 1)) := Nat.one_le_two_pow
              have := Nat.sub_mul (2 ^ (ilog2 b + 1)) 1 (2 ^ (ilog2 a - (ilog2 b + 1)))
              omega
          _ = 2 ^ (ilog2 a) - 1 := by
              rw [← pow_add]
              congr 2
              omega
          _ ≤ a - 1 := by omega
          _ ≤ a := by omega
      · rw [if_neg hk]
        have hla : ilog2 a ≤ ilog2 b := by omega
        have htn : (-((ilog2 a : Int) - (ilog2 b : Int) - 1)).toNat
            = ilog2 b + 1 - ilog2 a := by omega
        rw [htn]
        simp only [decide_eq_true_eq]
        calc b ≤ 2 ^ (ilog2 b + 1) - 1 := by omega
          _ ≤ 2 ^ (ilog2 a) * 2 ^ (ilog2 b + 1 - ilog2 a) - 1 := by
              rw [← pow_add]
              have : ilog2 a + (ilog2 b + 1 - ilog2 a) = ilog2 b + 1 := by omega
              rw [this]
          _ ≤ a * 2 ^ (ilog2 b + 1 - ilog2 a) - 1 := by
              apply Nat.sub_le_sub_right
              exact Nat.mul_le_mul_right _ ha1
          _ ≤ a * 2 ^ (ilog2 b + 1 - ilog2 a) := by omega

/-- Helper: rounding to binary64 preserves an integer upper bound of at
most 2^52 (the bound is representable, so the rounded value cannot cross
it). -/
theorem flp_le (a b M : Nat) (hb : b ≠ 0) (hM1 : 1 ≤ M) (hM : M ≤ 2 ^ 52)
    (h : a ≤ b * M) : (flp a b).1 ≤ (flp a b).2 * M ∧ (flp a b).2 ≠ 0 := by
  by_cases ha : a = 0
  · subst ha
    rw [show flp 0 b = (0, 1) from by unfold flp; rw [if_pos rfl]]
    exact ⟨Nat.zero_le _, by omega⟩
  · have ha1 : 1 ≤ a := Nat.pos_of_ne_zero ha
    have hp := qexpP_lower a b ha1 (Nat.pos_of_ne_zero hb)
    have he52 : qexpP a b ≤ 52 := by
      by_contra hgt
      push_neg at hgt
      unfold pow2le at hp
      rw [if_pos (by omega)] at hp
      simp only [decide_eq_true_eq] at hp
      have h53 : 2 ^ 53 ≤ 2 ^ (qexpP a b).toNat := by
        apply Nat.pow_le_pow_right (by omega)
        omega
      have hchain : b * 2 ^ 53 ≤ b * 2 ^ 52 := by
        calc b * 2 ^ 53 ≤ b * 2 ^ (qexpP a b).toNat := Nat.mul_le_mul_left b h53
          _ ≤ a := hp
          _ ≤ b * M := h
          _ ≤ b * 2 ^ 52 := Nat.mul_le_mul_left b hM
      have := Nat.le_of_mul_le_mul_left hchain (Nat.pos_of_ne_zero hb)
      norm_num at this
    unfold flp
    rw [if_neg ha]
    dsimp only
    unfold scale52 pow2frac
    rw [if_pos he52, if_pos he52]
    dsimp only
    constructor
    · have hx : a * 2 ^ (52 - qexpP a b).toNat ≤ b * (M * 2 ^ (52 - qexpP a b).toNat) := by
        calc a * 2 ^ (52 - qexpP a b).toNat
            ≤ b * M * 2 ^ (52 - qexpP a b).toNat := Nat.mul_le_mul_right _ h
          _ = b * (M * 2 ^ (52 - qexpP a b).toNat) := by ring
      have := rhe_le (a * 2 ^ (52 - qexpP a b).toNat) b (M * 2 ^ (52 - qexpP a b).toNat) hb hx
      calc rhe (a * 2 ^ (52 - qexpP a b).toNat) b
          ≤ M * 2 ^ (52 - qexpP a b).toNat := this
        _ = 2 ^ (52 - qexpP a b).toNat * M := by ring
    · exact (Nat.pos_pow_of_pos _ (by omega)).ne'

/-- Helper: integers up to 2^52 convert to binary64 exactly. -/
theorem flp_int (n : Nat) (h1 : 1 ≤ n) (h2 : n ≤ 2 ^ 52) :
    ∃ k, flp n 1 = (n * 2 ^ k, 2 ^ k) := by
  have hp := qexpP_lower n 1 h1 (by omega)
  have he52 : qexpP n 1 ≤ 52 := by
    by_contra hgt
    push_neg at hgt
    unfold pow2le at hp
    rw [if_pos (by omega)] at hp
    simp only [decide_eq_true_eq, one_mul] at hp
    have h53 : 2 ^ 53 ≤ 2 ^ (qexpP n 1).toNat := by
      apply Nat.pow_le_pow_right (by omega)
      omega
    have : (2:Nat) ^ 53 ≤ 2 ^ 52 := le_trans (le_trans h53 hp) h2
    norm_num at this
  refine ⟨(52 - qexpP n 1).toNat, ?_⟩
  unfold flp
  rw [if_neg (by omega)]
  dsimp only
  unfold scale52 pow2frac
  rw [if_pos he52, if_pos he52]
  dsimp only
  have hrhe : rhe (n * 2 ^ (52 - qexpP n 1).toNat) 1 = n * 2 ^ (52 - qexpP n 1).toNat := by
    unfold rhe
    simp [Nat.mod_one, Nat.div_one]
  rw [hrhe]

/-- C1 (amended): the gauge percent is the float64 computation of line
115, not the exact `ceil(100·completed/tasks)` (see the counterexample
for a deviation).  When `tasks = 0` the division produces NaN or an
infinity and the int conversion is implementation-defined - not 0.  When
`tasks ≠ 0` and `0 ≤ completed ≤ tasks ≤ 2^52`, the computed percent is
defined and lies in `[0, 100]`.  The gauge region of every laid-out
stage carries exactly this value. -/
theorem c1_gauge_percent_float (completed tasks : Int) :
    (tasks = 0 → gaugePercent completed tasks = none) ∧
    (tasks ≠ 0 → 0 ≤ completed → completed ≤ tasks → tasks ≤ 2 ^ 52 →
      ∃ p, gaugePercent completed tasks = some p ∧ 0 ≤ p ∧ p ≤ 100) ∧
    (∀ w lw y s rs, stageRegions w lw y s = some rs →
      ∃ cap, Region.mk (mkRect lw y (w - 2) (y + 1))
        (Content.gauge cap (gaugePercent s.CompletedTasks s.Tasks)) ∈ rs) := by
  refine ⟨?_, ?_, ?_⟩
  · intro h
    simp [gaugePercent, h]
  · intro ht hc0 hct htb
    have hpow : (2:Int) ^ 52 = 4503599627370496 := by norm_num
    have hpowN : (2:Nat) ^ 52 = 4503599627370496 := by norm_num
    have htpos : 1 ≤ tasks := by omega
    have hct2 : completed.natAbs ≤ tasks.natAbs := by omega
    have ht1 : 1 ≤ tasks.natAbs := by omega
    have ht52 : tasks.natAbs ≤ 2 ^ 52 := by omega
    by_cases hc1 : completed.natAbs = 0
    · have hceq : completed = 0 := by omega
      subst hceq
      refine ⟨0, ?_, le_refl 0, by norm_num⟩
      unfold gaugePercent
      rw [if_neg ht]
      dsimp only
      norm_num [flp]
    · have hc1p : 1 ≤ completed.natAbs := by omega
      obtain ⟨k1, hk1⟩ := flp_int completed.natAbs hc1p (le_trans hct2 ht52)
      obtain ⟨k2, hk2⟩ := flp_int tasks.natAbs ht1 ht52
      have hden0 : (flp completed.natAbs 1).2 * (flp tasks.natAbs 1).1 ≠ 0 := by
        rw [hk1, hk2]
        exact Nat.mul_ne_zero (by positivity) (Nat.mul_ne_zero (by omega) (by positivity))
      have hnum0 : (flp completed.natAbs 1).1 * (flp tasks.natAbs 1).2
          ≤ (flp completed.natAbs 1).2 * (flp tasks.natAbs 1).1 * 1 := by
        rw [hk1, hk2]
        calc completed.natAbs * 2 ^ k1 * 2 ^ k2
            = completed.natAbs * (2 ^ k1 * 2 ^ k2) := by ring
          _ ≤ tasks.natAbs * (2 ^ k1 * 2 ^ k2) := Nat.mul_le_mul_right _ hct2
          _ = 2 ^ k1 * (tasks.natAbs * 2 ^ k2) * 1 := by ring
      have hq0 := flp_le ((flp completed.natAbs 1).1 * (flp tasks.natAbs 1).2)
        ((flp completed.natAbs 1).2 * (flp tasks.natAbs 1).1) 1 hden0 (le_refl 1)
        (by norm_num) hnum0
      set q0 := flp ((flp completed.natAbs 1).1 * (flp tasks.natAbs 1).2)
        ((flp completed.natAbs 1).2 * (flp tasks.natAbs 1).1) with hq0def
      have hnum1 : q0.1 * 100 ≤ q0.2 * 100 :=
        Nat.mul_le_mul_right _ (by simpa using hq0.1)
      have hq1 := flp_le (q0.1 * 100) q0.2 100 hq0.2 (by norm_num) (by norm_num) hnum1
      set q1 := flp (q0.1 * 100) q0.2 with hq1def
      have hq12 : 1 ≤ q1.2 := Nat.pos_of_ne_zero hq1.2
      have hr100 : (q1.1 + q1.2 - 1) / q1.2 ≤ 100 := by
        have hb := hq1.1
        have hlt : q1.1 + q1.2 - 1 < 101 * q1.2 := by omega
        have := (Nat.div_lt_iff_lt_mul (by omega : 0 < q1.2)).mpr
          (by omega : q1.1 + q1.2 - 1 < 101 * q1.2)
        omega
      refine ⟨(((q1.1 + q1.2 - 1) / q1.2 : Nat) : Int), ?_,
        by exact_mod_cast Nat.zero_le _, by exact_mod_cast hr100⟩
      have hsign : (0:Int) ≤ completed * tasks := mul_nonneg hc0 (by omega)
      have hcast100 : (((q1.1 + q1.2 - 1) / q1.2 : Nat) : Int) ≤ 100 := by exact_mod_cast hr100
      unfold gaugePercent
      rw [if_neg ht]
      dsimp only
      rw [← hq0def]
      rw [← hq1def]
      rw [if_pos hsign, if_pos ?_]
      · constructor
        · have : (0:Int) ≤ (((q1.1 + q1.2 - 1) / q1.2 : Nat) : Int) := by
            exact_mod_cast Nat.zero_le _
          have h63 : -((2:Int) ^ 63) ≤ 0 := by norm_num
          omega
        · have h63 : (100:Int) < 2 ^ 63 := by norm_num
          omega
  · intro w lw y s rs h
    simp only [stageRegions, Option.bind_eq_bind] at h
    cases htr : truncateLabel
        (goIntStr s.Index ++ ascii " " ++ s.Status ++ ascii ": " ++ s.Name) lw with
    | none => rw [htr] at h; simp at h
    | some res =>
      rw [htr] at h
      simp only [Option.some_bind] at h
      cases h
      exact ⟨_, List.mem_cons_of_mem _ (List.mem_cons_self _ _)⟩

/-- Witness for C1 at 3 of 10 tasks complete. -/
theorem c1_gauge_percent_float_witness :
    (10:Int) ≠ 0 ∧ (0:Int) ≤ 3 ∧ (3:Int) ≤ 10 ∧ (10:Int) ≤ 2 ^ 52 ∧
    ∃ p, gaugePercent 3 10 = some p ∧ 0 ≤ p ∧ p ≤ 100 :=
  ⟨by norm_num, by norm_num, by norm_num, by norm_num,
    (c1_gauge_percent_float 3 10).2.1 (by norm_num) (by norm_num) (by norm_num) (by norm_num)⟩

/-- C1 counterexample to the claim as stated: the stage with 7 of 25
tasks complete renders with gauge percent 29, but
`ceil(100·7/25) = ceil(28) = 28` - the float64 division `7/25` rounds up,
so the computed percent deviates from the exact formula even though
`tasks > 0`. -/
theorem c1_gauge_ceil_deviation_cex :
    (render 40 10 state725).map gaugePercents = some [some 29] ∧
    ((29:Int) ≠ ⌈(100 * 7 / 25 : ℚ)⌉) ∧ (⌈(100 * 7 / 25 : ℚ)⌉ : Int) = 28 :=
  ⟨by set_option maxRecDepth 1000000 in decide, by norm_num, by norm_num⟩
